import Mathlib

/-!
Verification of the murcott peer-to-peer messaging substrate.

Shallow embedding of the identifier algebra (`utils.NodeID`), the Kademlia
routing table (`dht/nodetable.go`), the DHT RPC dispatch and response
correlation (`dht.go`), and the router operations (`router.go`).
Machine integers are modelled as `Nat`/`Int`; the 160-bit digests are
natural numbers; buckets and maps are lists.
-/

/-- A namespaced node identifier: a 4-byte namespace tag and a 160-bit
digest, both modelled as naturals.  The legacy `NodeId` (no namespace) is
embedded with `ns = 0`; every routing-table operation reads only `digest`,
exactly as the Go code compares and xors `Digest` fields only. -/
structure NodeID where
  ns : Nat
  digest : Nat
  deriving DecidableEq, Repr

/-- `utils.NodeInfo`: a node identifier paired with its transport address
(the address is opaque to all verified code; we keep it as a string). -/
structure NodeInfo where
  id : NodeID
  addr : String
  deriving DecidableEq, Repr

/-- The scanning loop of `NodeID.Log2int` (part_003 lines 81-91): starting
at bit `i` of `b`, walk downward while the bit is clear, decrementing `l`;
stop at a set bit or below bit 0. -/
def log2intAux (b : Nat) : Nat → Int → Int
  | 0, l => if b.testBit 0 then l else l - 1
  | i + 1, l => if b.testBit (i + 1) then l else log2intAux b i (l - 1)

/-- `NodeID.Log2int`: `l := 159`; `b := x + 1`; for `i := 160` downto `0`
while bit `i` of `b` is clear, `l--`; return `max l 0`. -/
def Log2int (x : Nat) : Int :=
  let b := x + 1
  let l := log2intAux b 160 159
  if l < 0 then 0 else l

/-- `bucketSize` from `dht/nodetable.go`. -/
def bucketSize : Nat := 160

/-- The routing table: 160 buckets of `NodeInfo`, the owner's identifier
and the bucket capacity `k`. -/
structure NodeTable where
  buckets : List (List NodeInfo)
  selfid : NodeID
  k : Nat
  deriving DecidableEq, Repr

/-- `newNodeTable(k, id)`: 160 empty buckets. -/
def newNodeTable (k : Nat) (id : NodeID) : NodeTable :=
  { buckets := List.replicate bucketSize []
    selfid := id
    k := k }

/-- Bucket index of a digest: `Log2int(digest XOR self.digest)`, as used by
`insert`, `remove`, `find` and `nearestNodes`. -/
def NodeTable.bucketIdx (t : NodeTable) (d : Nat) : Nat :=
  (Log2int (Nat.xor d t.selfid.digest)).toNat

/-- Remove the first element of a bucket whose digest is `d` (the loop of
`nodeTable.remove`, which deletes the first `Cmp`-equal entry and returns). -/
def removeFirst (l : List NodeInfo) (d : Nat) : List NodeInfo :=
  match l with
  | [] => []
  | n :: rest => if n.id.digest = d then rest else n :: removeFirst rest d

/-- `nodeTable.remove(id)`: delete the first entry with `id`'s digest from
the bucket indexed by `Log2int(id.Digest XOR self.Digest)`. -/
def NodeTable.remove (t : NodeTable) (id : NodeID) : NodeTable :=
  let b := t.bucketIdx id.digest
  { t with buckets := t.buckets.set b (removeFirst (t.buckets.getD b []) id.digest) }

/-- `nodeTable.insert(node)`: first `remove(node.ID)`, then append to the
bucket when it has fewer than `k` entries, otherwise overwrite the bucket's
tail slot with the new observation. -/
def NodeTable.insert (t : NodeTable) (node : NodeInfo) : NodeTable :=
  let t1 := t.remove node.id
  let b := t1.bucketIdx node.id.digest
  let bk := t1.buckets.getD b []
  if bk.length < t1.k then
    { t1 with buckets := t1.buckets.set b (bk ++ [node]) }
  else
    { t1 with buckets := t1.buckets.set b (bk.dropLast ++ [node]) }

/-- `nodeTable.find(id)`: scan the single bucket indexed by the digest's
XOR distance for the first `Cmp`-equal entry. -/
def NodeTable.find (t : NodeTable) (id : NodeID) : Option NodeInfo :=
  (t.buckets.getD (t.bucketIdx id.digest) []).find? (fun n => n.id.digest = id.digest)

/-- `nodeTable.nodes()`: all entries of all buckets, in bucket order. -/
def NodeTable.nodes (t : NodeTable) : List NodeInfo :=
  t.buckets.flatten

/-- The accumulation loop of `nearestNodes` (lines 100-112): at offset `i`
append bucket `b+i` (when below 160) and bucket `b-i` (when `i ≤ b`), then
return the last `k` accumulated entries once at least `k` have been
gathered; `fuel` counts the remaining offsets (from 160). -/
def nearestLoop (buckets : List (List NodeInfo)) (k b : Nat) :
    Nat → Nat → List NodeInfo → List NodeInfo
  | 0, _, n => n
  | fuel + 1, i, n =>
    let n1 := if b + i < bucketSize then n ++ buckets.getD (b + i) [] else n
    let n2 := if i ≤ b then n1 ++ buckets.getD (b - i) [] else n1
    if k ≤ n2.length then n2.drop (n2.length - k)
    else nearestLoop buckets k b fuel (i + 1) n2

/-- `nodeTable.nearestNodes(id)`: start from the bucket of `id`'s XOR
distance; if it holds strictly more than `k` entries return its last `k`,
otherwise run the outward accumulation loop from offset 0. -/
def NodeTable.nearestNodes (t : NodeTable) (id : NodeID) : List NodeInfo :=
  let b := t.bucketIdx id.digest
  let n := t.buckets.getD b []
  if t.k < n.length then n.drop (n.length - t.k)
  else nearestLoop t.buckets t.k b bucketSize 0 n

theorem log2intAux_le (b : Nat) : ∀ (i : Nat) (l : Int), log2intAux b i l ≤ l := by
  intro i
  induction i with
  | zero =>
    intro l
    simp only [log2intAux]
    split <;> omega
  | succ i ih =>
    intro l
    simp only [log2intAux]
    split
    · exact le_refl l
    · exact le_trans (ih (l - 1)) (by omega)

theorem Log2int_nonneg (x : Nat) : 0 ≤ Log2int x := by
  show 0 ≤ (if log2intAux (x + 1) 160 159 < 0 then 0 else log2intAux (x + 1) 160 159)
  split <;> omega

theorem Log2int_le (x : Nat) : Log2int x ≤ 159 := by
  show (if log2intAux (x + 1) 160 159 < 0 then 0 else log2intAux (x + 1) 160 159) ≤ 159
  have h := log2intAux_le (x + 1) 160 159
  split <;> omega

theorem bucketIdx_lt (t : NodeTable) (d : Nat) : t.bucketIdx d < 160 := by
  unfold NodeTable.bucketIdx
  have h1 := Log2int_nonneg (Nat.xor d t.selfid.digest)
  have h2 := Log2int_le (Nat.xor d t.selfid.digest)
  omega

theorem ge_two_pow_of_testBit {b i : Nat} (h : b.testBit i = true) : 2 ^ i ≤ b := by
  by_contra hlt
  push_neg at hlt
  rw [Nat.testBit_lt_two_pow hlt] at h
  exact Bool.noConfusion h

theorem testBit_log2_self {b : Nat} (hb : b ≠ 0) : b.testBit (Nat.log2 b) = true := by
  rw [Nat.testBit_to_div_mod]
  have h1 : 2 ^ Nat.log2 b ≤ b := Nat.log2_self_le hb
  have h2 : b < 2 ^ (Nat.log2 b + 1) := Nat.lt_log2_self
  have hdiv : b / 2 ^ Nat.log2 b = 1 := by
    have hpos : 0 < 2 ^ Nat.log2 b := Nat.pos_pow_of_pos _ (by norm_num)
    have hlo : 1 ≤ b / 2 ^ Nat.log2 b := (Nat.one_le_div_iff hpos).mpr h1
    have hhi : b / 2 ^ Nat.log2 b < 2 := by
      rw [Nat.div_lt_iff_lt_mul hpos]
      calc b < 2 ^ (Nat.log2 b + 1) := h2
        _ = 2 * 2 ^ Nat.log2 b := by ring
    omega
  rw [hdiv]
  decide

theorem log2intAux_eq (b : Nat) (hb : b ≠ 0) :
    ∀ (i : Nat) (l : Int), Nat.log2 b ≤ i →
      log2intAux b i l = l - i + Nat.log2 b := by
  intro i
  induction i with
  | zero =>
    intro l hh
    have hb2 : b < 2 ^ 1 := (Nat.log2_lt hb).mp (by omega)
    have hb1 : b = 1 := by norm_num at hb2; omega
    subst hb1
    have ht : Nat.testBit 1 0 = true := by decide
    simp [log2intAux, ht]
    omega
  | succ i ih =>
    intro l hh
    by_cases htb : b.testBit (i + 1) = true
    · have hge : 2 ^ (i + 1) ≤ b := ge_two_pow_of_testBit htb
      have hle : i + 1 ≤ Nat.log2 b := (Nat.le_log2 hb).mpr hge
      have heq : Nat.log2 b = i + 1 := by omega
      simp only [log2intAux, htb, if_true]
      rw [heq]
      push_cast
      ring
    · have hne : Nat.log2 b ≠ i + 1 := by
        intro hc
        rw [← hc] at htb
        exact htb (testBit_log2_self hb)
      have hle : Nat.log2 b ≤ i := by omega
      simp only [log2intAux, htb, if_false]
      rw [ih (l - 1) hle]
      push_cast
      ring

theorem Log2int_eq_log2 (x : Nat) (hx : x < 2 ^ 160) :
    Log2int x = max 0 ((Nat.log2 (x + 1) : Int) - 1) := by
  have hb : x + 1 ≠ 0 := by omega
  have hlog : Nat.log2 (x + 1) ≤ 160 := by
    have h1 : x + 1 < 2 ^ 161 := by
      have h2 : (2 : Nat) ^ 160 < 2 ^ 161 := by norm_num
      omega
    have := (Nat.log2_lt hb).mpr h1
    omega
  show (if log2intAux (x + 1) 160 159 < 0 then 0 else log2intAux (x + 1) 160 159)
      = max 0 ((Nat.log2 (x + 1) : Int) - 1)
  rw [log2intAux_eq (x + 1) hb 160 159 hlog]
  split <;> omega

/-- C3: for every 160-bit input `x`, `Log2int x` equals
`floor(log2 (x+1)) - 1` (the highest-set-bit position of `x+1`, minus one)
clamped below at 0; in particular `Log2int 0 = 0` and
`Log2int (2^160 - 1) = 159`. -/
theorem log2int_spec (x : Nat) (hx : x < 2 ^ 160) :
    Log2int x = max 0 ((Nat.log2 (x + 1) : Int) - 1) ∧
    Log2int 0 = 0 ∧ Log2int (2 ^ 160 - 1) = 159 := by
  refine ⟨Log2int_eq_log2 x hx, ?_, ?_⟩
  · rw [Log2int_eq_log2 0 (by positivity)]
    norm_num [Nat.log2]
  · rw [Log2int_eq_log2 (2 ^ 160 - 1) (by omega)]
    have hp : 0 < (2 : Nat) ^ 160 := by positivity
    have h1 : (2 : Nat) ^ 160 - 1 + 1 = 2 ^ 160 := by omega
    rw [h1]
    have hlg : Nat.log2 (2 ^ 160) = 160 := by
      have ha : 160 ≤ Nat.log2 (2 ^ 160) := (Nat.le_log2 (by positivity)).mpr (le_refl _)
      have hc : Nat.log2 (2 ^ 160) < 161 := (Nat.log2_lt (by positivity)).mpr (by norm_num)
      omega
    rw [hlg]
    norm_num

/-- Witness for `log2int_spec` at `x = 5`. -/
theorem log2int_spec_witness :
    5 < 2 ^ 160 ∧
    (Log2int 5 = max 0 ((Nat.log2 (5 + 1) : Int) - 1) ∧
     Log2int 0 = 0 ∧ Log2int (2 ^ 160 - 1) = 159) :=
  ⟨by norm_num, log2int_spec 5 (by norm_num)⟩

theorem getD_set_self {L : List (List NodeInfo)} {b : Nat} (x : List NodeInfo)
    (h : b < L.length) : (L.set b x).getD b [] = x := by
  simp [List.getD_eq_getElem?_getD, List.getElem?_set_self, h]

theorem getD_set_ne {L : List (List NodeInfo)} {b b' : Nat} (x : List NodeInfo)
    (h : b ≠ b') : (L.set b x).getD b' [] = L.getD b' [] := by
  simp [List.getD_eq_getElem?_getD, List.getElem?_set_ne h]

theorem getD_eq_getElem {L : List (List NodeInfo)} {b : Nat} (h : b < L.length) :
    L.getD b [] = L[b] := by
  simp [List.getD_eq_getElem?_getD, List.getElem?_eq_getElem h]

theorem getD_eq_nil {L : List (List NodeInfo)} {b : Nat} (h : ¬ b < L.length) :
    L.getD b [] = [] := by
  rw [List.getD_eq_getElem?_getD, List.getElem?_eq_none (by omega : L.length ≤ b)]
  rfl

theorem mem_getD_flatten {L : List (List NodeInfo)} {b : Nat} {x : NodeInfo}
    (h : x ∈ L.getD b []) : x ∈ L.flatten := by
  by_cases hb : b < L.length
  · rw [getD_eq_getElem hb] at h
    exact List.mem_flatten.mpr ⟨L[b], List.getElem_mem hb, h⟩
  · rw [getD_eq_nil hb] at h
    exact absurd h (List.not_mem_nil x)

theorem removeFirst_sublist (l : List NodeInfo) (d : Nat) :
    (removeFirst l d).Sublist l := by
  induction l with
  | nil => simp [removeFirst]
  | cons n rest ih =>
    simp only [removeFirst]
    split
    · exact List.sublist_cons_self n rest
    · exact List.Sublist.cons₂ n ih

theorem mem_removeFirst {l : List NodeInfo} {d : Nat} {x : NodeInfo}
    (h : x ∈ removeFirst l d) : x ∈ l :=
  (removeFirst_sublist l d).mem h

theorem length_removeFirst_le (l : List NodeInfo) (d : Nat) :
    (removeFirst l d).length ≤ l.length :=
  (removeFirst_sublist l d).length_le

theorem not_mem_removeFirst {l : List NodeInfo} {d : Nat}
    (hp : l.Pairwise (fun x y => x.id.digest ≠ y.id.digest)) :
    ∀ x ∈ removeFirst l d, x.id.digest ≠ d := by
  induction l with
  | nil => intro x hx; exact absurd hx (List.not_mem_nil x)
  | cons n rest ih =>
    rw [List.pairwise_cons] at hp
    intro x hx
    simp only [removeFirst] at hx
    split at hx
    · rename_i hnd
      intro hxd
      exact hp.1 x hx (by rw [hxd, hnd])
    · rename_i hnd
      rcases List.mem_cons.mp hx with h1 | h1
      · rw [h1]; exact hnd
      · exact ih hp.2 x h1

theorem remove_selfid (t : NodeTable) (i : NodeID) : (t.remove i).selfid = t.selfid := rfl

theorem remove_k (t : NodeTable) (i : NodeID) : (t.remove i).k = t.k := rfl

theorem remove_bucketIdx (t : NodeTable) (i : NodeID) (d : Nat) :
    (t.remove i).bucketIdx d = t.bucketIdx d := rfl

theorem remove_buckets (t : NodeTable) (i : NodeID) :
    (t.remove i).buckets =
      t.buckets.set (t.bucketIdx i.digest)
        (removeFirst (t.buckets.getD (t.bucketIdx i.digest) []) i.digest) := rfl

theorem insert_buckets_lt (t : NodeTable) (x : NodeInfo)
    (h : ((t.remove x.id).buckets.getD (t.bucketIdx x.id.digest) []).length < t.k) :
    (t.insert x).buckets =
      (t.remove x.id).buckets.set (t.bucketIdx x.id.digest)
        (((t.remove x.id).buckets.getD (t.bucketIdx x.id.digest) []) ++ [x]) := by
  unfold NodeTable.insert
  dsimp only
  simp only [remove_bucketIdx, remove_k]
  rw [if_pos h]

theorem insert_buckets_ge (t : NodeTable) (x : NodeInfo)
    (h : ¬ ((t.remove x.id).buckets.getD (t.bucketIdx x.id.digest) []).length < t.k) :
    (t.insert x).buckets =
      (t.remove x.id).buckets.set (t.bucketIdx x.id.digest)
        (((t.remove x.id).buckets.getD (t.bucketIdx x.id.digest) []).dropLast ++ [x]) := by
  unfold NodeTable.insert
  dsimp only
  simp only [remove_bucketIdx, remove_k]
  rw [if_neg h]

theorem insert_selfid (t : NodeTable) (x : NodeInfo) : (t.insert x).selfid = t.selfid := by
  unfold NodeTable.insert
  dsimp only
  split <;> rfl

theorem insert_k (t : NodeTable) (x : NodeInfo) : (t.insert x).k = t.k := by
  unfold NodeTable.insert
  dsimp only
  split <;> rfl

theorem insert_bucketIdx (t : NodeTable) (x : NodeInfo) (d : Nat) :
    (t.insert x).bucketIdx d = t.bucketIdx d := by
  unfold NodeTable.bucketIdx
  rw [insert_selfid]

/-- Well-formedness of a routing table: positive capacity, 160 buckets,
every entry sits in the bucket of its XOR-distance bit index, buckets are
capped at `k`, and digests are distinct within each bucket. -/
def WF (t : NodeTable) : Prop :=
  0 < t.k ∧
  t.buckets.length = 160 ∧
  (∀ b : Nat, ∀ p ∈ t.buckets.getD b [], t.bucketIdx p.id.digest = b) ∧
  (∀ b : Nat, (t.buckets.getD b []).length ≤ t.k) ∧
  (∀ b : Nat, (t.buckets.getD b []).Pairwise (fun x y => x.id.digest ≠ y.id.digest))

theorem getD_replicate_nil (b : Nat) :
    (List.replicate bucketSize ([] : List NodeInfo)).getD b [] = [] := by
  by_cases hb : b < bucketSize
  · rw [getD_eq_getElem (by simpa using hb)]
    simp
  · rw [getD_eq_nil (by simpa using hb)]

theorem WF_new (k : Nat) (id : NodeID) (hk : 0 < k) : WF (newNodeTable k id) := by
  refine ⟨hk, by simp [newNodeTable, bucketSize], ?_, ?_, ?_⟩ <;>
    intro b <;> simp only [newNodeTable] <;> rw [getD_replicate_nil] <;> simp

theorem WF_remove (t : NodeTable) (h : WF t) (i : NodeID) : WF (t.remove i) := by
  obtain ⟨hk, hlen, hidx, hcap, hpw⟩ := h
  have hb : t.bucketIdx i.digest < t.buckets.length := by rw [hlen]; exact bucketIdx_lt t i.digest
  refine ⟨hk, ?_, ?_, ?_, ?_⟩
  · rw [remove_buckets, List.length_set]; exact hlen
  · intro b p hp
    rw [remove_bucketIdx]
    rw [remove_buckets] at hp
    by_cases hbb : t.bucketIdx i.digest = b
    · subst hbb
      rw [getD_set_self _ hb] at hp
      exact hidx _ p (mem_removeFirst hp)
    · rw [getD_set_ne _ hbb] at hp
      exact hidx b p hp
  · intro b
    rw [remove_k, remove_buckets]
    by_cases hbb : t.bucketIdx i.digest = b
    · subst hbb
      rw [getD_set_self _ hb]
      exact le_trans (length_removeFirst_le _ _) (hcap _)
    · rw [getD_set_ne _ hbb]
      exact hcap b
  · intro b
    rw [remove_buckets]
    by_cases hbb : t.bucketIdx i.digest = b
    · subst hbb
      rw [getD_set_self _ hb]
      exact (hpw _).sublist (removeFirst_sublist _ _)
    · rw [getD_set_ne _ hbb]
      exact hpw b

theorem WF_insert (t : NodeTable) (h : WF t) (x : NodeInfo) : WF (t.insert x) := by
  obtain ⟨hk, hlen, hidx, hcap, hpw⟩ := h
  obtain ⟨hk0, hlen0, hidx0, hcap0, hpw0⟩ := WF_remove t ⟨hk, hlen, hidx, hcap, hpw⟩ x.id
  have hb0 : t.bucketIdx x.id.digest < (t.remove x.id).buckets.length := by
    rw [hlen0]; exact bucketIdx_lt t x.id.digest
  have hbk_eq : (t.remove x.id).buckets.getD (t.bucketIdx x.id.digest) [] =
      removeFirst (t.buckets.getD (t.bucketIdx x.id.digest) []) x.id.digest := by
    rw [remove_buckets]
    exact getD_set_self _ (by rw [hlen]; exact bucketIdx_lt t x.id.digest)
  have hgone : ∀ p ∈ (t.remove x.id).buckets.getD (t.bucketIdx x.id.digest) [],
      p.id.digest ≠ x.id.digest := by
    rw [hbk_eq]
    exact not_mem_removeFirst (hpw _)
  by_cases hlt : ((t.remove x.id).buckets.getD (t.bucketIdx x.id.digest) []).length < t.k
  · refine ⟨by rw [insert_k]; exact hk, ?_, ?_, ?_, ?_⟩
    · rw [insert_buckets_lt t x hlt, List.length_set]; exact hlen0
    · intro b p hp
      rw [insert_bucketIdx]
      rw [insert_buckets_lt t x hlt] at hp
      by_cases hbb : t.bucketIdx x.id.digest = b
      · subst hbb
        rw [getD_set_self _ hb0] at hp
        rcases List.mem_append.mp hp with h1 | h1
        · exact hidx0 _ p h1
        · rw [List.mem_singleton.mp h1]
      · rw [getD_set_ne _ hbb] at hp
        exact hidx0 b p hp
    · intro b
      rw [insert_k, insert_buckets_lt t x hlt]
      by_cases hbb : t.bucketIdx x.id.digest = b
      · subst hbb
        rw [getD_set_self _ hb0, List.length_append, List.length_singleton]
        omega
      · rw [getD_set_ne _ hbb]
        exact hcap0 b
    · intro b
      rw [insert_buckets_lt t x hlt]
      by_cases hbb : t.bucketIdx x.id.digest = b
      · subst hbb
        rw [getD_set_self _ hb0]
        rw [List.pairwise_append]
        refine ⟨hpw0 _, List.pairwise_singleton _ _, ?_⟩
        intro a ha y hy
        rw [List.mem_singleton.mp hy]
        exact hgone a ha
      · rw [getD_set_ne _ hbb]
        exact hpw0 b
  · refine ⟨by rw [insert_k]; exact hk, ?_, ?_, ?_, ?_⟩
    · rw [insert_buckets_ge t x hlt, List.length_set]; exact hlen0
    · intro b p hp
      rw [insert_bucketIdx]
      rw [insert_buckets_ge t x hlt] at hp
      by_cases hbb : t.bucketIdx x.id.digest = b
      · subst hbb
        rw [getD_set_self _ hb0] at hp
        rcases List.mem_append.mp hp with h1 | h1
        · exact hidx0 _ p ((List.dropLast_sublist _).mem h1)
        · rw [List.mem_singleton.mp h1]
      · rw [getD_set_ne _ hbb] at hp
        exact hidx0 b p hp
    · intro b
      rw [insert_k, insert_buckets_ge t x hlt]
      by_cases hbb : t.bucketIdx x.id.digest = b
      · subst hbb
        rw [getD_set_self _ hb0, List.length_append, List.length_singleton,
          List.length_dropLast]
        have := hcap0 (t.bucketIdx x.id.digest)
        rw [remove_k] at this
        omega
      · rw [getD_set_ne _ hbb]
        exact hcap0 b
    · intro b
      rw [insert_buckets_ge t x hlt]
      by_cases hbb : t.bucketIdx x.id.digest = b
      · subst hbb
        rw [getD_set_self _ hb0]
        rw [List.pairwise_append]
        refine ⟨(hpw0 _).sublist (List.dropLast_sublist _), List.pairwise_singleton _ _, ?_⟩
        intro a ha y hy
        rw [List.mem_singleton.mp hy]
        exact hgone a ((List.dropLast_sublist _).mem ha)
      · rw [getD_set_ne _ hbb]
        exact hpw0 b

/-- All routing tables reachable through the public interface: a fresh
table (with positive `k`) followed by any sequence of inserts and
removes. -/
inductive Reachable : NodeTable → Prop where
  | base (k : Nat) (id : NodeID) (h : 0 < k) : Reachable (newNodeTable k id)
  | insert {t : NodeTable} (x : NodeInfo) : Reachable t → Reachable (t.insert x)
  | remove {t : NodeTable} (i : NodeID) : Reachable t → Reachable (t.remove i)

theorem WF_reachable {t : NodeTable} (h : Reachable t) : WF t := by
  induction h with
  | base k id hk => exact WF_new k id hk
  | insert x _ ih => exact WF_insert _ ih x
  | remove i _ ih => exact WF_remove _ ih i

theorem nodes_pairwise (t : NodeTable) (h : WF t) :
    t.nodes.Pairwise (fun x y => x.id.digest ≠ y.id.digest) := by
  obtain ⟨hk, hlen, hidx, hcap, hpw⟩ := h
  unfold NodeTable.nodes
  rw [List.pairwise_flatten]
  constructor
  · intro l hl
    obtain ⟨i, hi, hli⟩ := List.mem_iff_getElem.mp hl
    have hpwi := hpw i
    rw [getD_eq_getElem hi] at hpwi
    rw [← hli]
    exact hpwi
  · rw [List.pairwise_iff_getElem]
    intro i j hi hj hij
    intro a ha c hc
    have h1 : t.bucketIdx a.id.digest = i := hidx i a (by rw [getD_eq_getElem hi]; exact ha)
    have h2 : t.bucketIdx c.id.digest = j := hidx j c (by rw [getD_eq_getElem hj]; exact hc)
    intro he
    rw [he] at h1
    omega

/-- C2: after any sequence of inserts and removes, every stored `NodeInfo`
lies in exactly the bucket `Log2int(digest XOR self.digest)`, every bucket
holds at most `k` entries, and no two entries of the table share an ID. -/
theorem nodetable_invariants (t : NodeTable) (h : Reachable t) :
    (∀ b : Nat, ∀ p ∈ t.buckets.getD b [], t.bucketIdx p.id.digest = b) ∧
    (∀ b : Nat, (t.buckets.getD b []).length ≤ t.k) ∧
    t.nodes.Pairwise (fun x y => x.id ≠ y.id) := by
  have hwf := WF_reachable h
  refine ⟨hwf.2.2.1, hwf.2.2.2.1, ?_⟩
  exact (nodes_pairwise t hwf).imp (fun hne heq => hne (by rw [heq]))

/-- Witness for `nodetable_invariants`: a fresh table with `k = 2` after
one insert is reachable, so the invariants hold for it. -/
theorem nodetable_invariants_witness :
    (∀ b : Nat, ∀ p ∈ ((newNodeTable 2 ⟨0, 0⟩).insert ⟨⟨0, 5⟩, "a"⟩).buckets.getD b [],
        ((newNodeTable 2 ⟨0, 0⟩).insert ⟨⟨0, 5⟩, "a"⟩).bucketIdx p.id.digest = b) ∧
    (∀ b : Nat, (((newNodeTable 2 ⟨0, 0⟩).insert ⟨⟨0, 5⟩, "a"⟩).buckets.getD b []).length ≤
        ((newNodeTable 2 ⟨0, 0⟩).insert ⟨⟨0, 5⟩, "a"⟩).k) ∧
    ((newNodeTable 2 ⟨0, 0⟩).insert ⟨⟨0, 5⟩, "a"⟩).nodes.Pairwise (fun x y => x.id ≠ y.id) :=
  nodetable_invariants _ (Reachable.insert ⟨⟨0, 5⟩, "a"⟩ (Reachable.base 2 ⟨0, 0⟩ (by decide)))

theorem find?_append_last {l : List NodeInfo} {x : NodeInfo} {d : Nat}
    (hl : ∀ p ∈ l, p.id.digest ≠ d) (hx : x.id.digest = d) :
    (l ++ [x]).find? (fun n => n.id.digest = d) = some x := by
  rw [List.find?_append]
  have h1 : l.find? (fun n => n.id.digest = d) = none := by
    apply List.find?_eq_none.mpr
    intro p hp
    simpa using hl p hp
  rw [h1]
  simp [List.find?, hx]

/-- C8: immediately after `insert x`, `find x.ID` returns `x`; immediately
after `remove i`, `find i` returns nothing — for every reachable prior
table. -/
theorem find_after_insert_remove (t : NodeTable) (h : Reachable t) (x : NodeInfo) (i : NodeID) :
    (t.insert x).find x.id = some x ∧ (t.remove i).find i = none := by
  have hwf := WF_reachable h
  obtain ⟨hk, hlen, hidx, hcap, hpw⟩ := hwf
  constructor
  · obtain ⟨hk0, hlen0, hidx0, hcap0, hpw0⟩ :=
      WF_remove t ⟨hk, hlen, hidx, hcap, hpw⟩ x.id
    have hb0 : t.bucketIdx x.id.digest < (t.remove x.id).buckets.length := by
      rw [hlen0]; exact bucketIdx_lt t x.id.digest
    have hbk_eq : (t.remove x.id).buckets.getD (t.bucketIdx x.id.digest) [] =
        removeFirst (t.buckets.getD (t.bucketIdx x.id.digest) []) x.id.digest := by
      rw [remove_buckets]
      exact getD_set_self _ (by rw [hlen]; exact bucketIdx_lt t x.id.digest)
    have hgone : ∀ p ∈ (t.remove x.id).buckets.getD (t.bucketIdx x.id.digest) [],
        p.id.digest ≠ x.id.digest := by
      rw [hbk_eq]; exact not_mem_removeFirst (hpw _)
    unfold NodeTable.find
    rw [insert_bucketIdx]
    by_cases hlt : ((t.remove x.id).buckets.getD (t.bucketIdx x.id.digest) []).length < t.k
    · rw [insert_buckets_lt t x hlt, getD_set_self _ hb0]
      exact find?_append_last hgone rfl
    · rw [insert_buckets_ge t x hlt, getD_set_self _ hb0]
      exact find?_append_last (fun p hp => hgone p ((List.dropLast_sublist _).mem hp)) rfl
  · unfold NodeTable.find
    rw [remove_bucketIdx]
    have hb : t.bucketIdx i.digest < t.buckets.length := by
      rw [hlen]; exact bucketIdx_lt t i.digest
    rw [remove_buckets, getD_set_self _ hb]
    apply List.find?_eq_none.mpr
    intro p hp
    simpa using not_mem_removeFirst (hpw _) p hp

/-- Witness for `find_after_insert_remove` on a concrete reachable table. -/
theorem find_after_insert_remove_witness :
    ((newNodeTable 2 ⟨0, 0⟩).insert ⟨⟨0, 5⟩, "a"⟩).find ⟨0, 5⟩ = some ⟨⟨0, 5⟩, "a"⟩ ∧
    ((newNodeTable 2 ⟨0, 0⟩).remove ⟨0, 5⟩).find ⟨0, 5⟩ = none :=
  find_after_insert_remove (newNodeTable 2 ⟨0, 0⟩) (Reachable.base 2 ⟨0, 0⟩ (by decide))
    ⟨⟨0, 5⟩, "a"⟩ ⟨0, 5⟩

theorem mem_flatten_set {L : List (List NodeInfo)} {b : Nat} {l : List NodeInfo} {p : NodeInfo}
    (hp : p ∈ (L.set b l).flatten) : p ∈ l ∨ p ∈ L.flatten := by
  rw [List.mem_flatten] at hp
  obtain ⟨m, hm, hpm⟩ := hp
  obtain ⟨i, hi, hmi⟩ := List.mem_iff_getElem.mp hm
  by_cases hib : i = b
  · subst hib
    rw [List.getElem_set_self hi] at hmi
    left; rw [hmi]; exact hpm
  · rw [List.getElem_set_ne (fun he => hib he.symm) ((List.length_set L b l) ▸ hi)] at hmi
    right
    exact List.mem_flatten.mpr ⟨m, by rw [← hmi]; exact List.getElem_mem _, hpm⟩

theorem mem_nodes_remove (t : NodeTable) (i : NodeID) (p : NodeInfo)
    (hp : p ∈ (t.remove i).nodes) : p ∈ t.nodes := by
  unfold NodeTable.nodes at *
  rw [remove_buckets] at hp
  rcases mem_flatten_set hp with h1 | h1
  · exact mem_getD_flatten (mem_removeFirst h1)
  · exact h1

theorem mem_nodes_insert (t : NodeTable) (x : NodeInfo) (p : NodeInfo)
    (hp : p ∈ (t.insert x).nodes) : p = x ∨ p ∈ t.nodes := by
  unfold NodeTable.nodes at *
  by_cases hlt : ((t.remove x.id).buckets.getD (t.bucketIdx x.id.digest) []).length < t.k
  · rw [insert_buckets_lt t x hlt] at hp
    rcases mem_flatten_set hp with h1 | h1
    · rcases List.mem_append.mp h1 with h2 | h2
      · right; exact mem_nodes_remove t x.id p (mem_getD_flatten h2)
      · left; exact List.mem_singleton.mp h2
    · right; exact mem_nodes_remove t x.id p h1
  · rw [insert_buckets_ge t x hlt] at hp
    rcases mem_flatten_set hp with h1 | h1
    · rcases List.mem_append.mp h1 with h2 | h2
      · right
        exact mem_nodes_remove t x.id p (mem_getD_flatten ((List.dropLast_sublist _).mem h2))
      · left; exact List.mem_singleton.mp h2
    · right; exact mem_nodes_remove t x.id p h1

set_option maxRecDepth 100000 in
/-- Counterexample to C7: `insert` has no self-guard, so inserting a
`NodeInfo` whose ID equals the table's own ID (as `processPacket` does with
any claimed sender, self included) makes `find(self)` return an entry. -/
theorem find_self_counterexample :
    ((newNodeTable 2 ⟨0, 0⟩).insert ⟨⟨0, 0⟩, "a"⟩).selfid = ⟨0, 0⟩ ∧
    ((newNodeTable 2 ⟨0, 0⟩).insert ⟨⟨0, 0⟩, "a"⟩).find ⟨0, 0⟩ = some ⟨⟨0, 0⟩, "a"⟩ :=
  ⟨rfl, by decide⟩

/-- Tables reachable while never inserting a `NodeInfo` whose digest equals
the table's own digest (the guard `findNearestNode` applies and
`processPacket`/`addNode` omit). -/
inductive SafeReachable : NodeTable → Prop where
  | base (k : Nat) (id : NodeID) (h : 0 < k) : SafeReachable (newNodeTable k id)
  | insert {t : NodeTable} (x : NodeInfo) (hx : x.id.digest ≠ t.selfid.digest) :
      SafeReachable t → SafeReachable (t.insert x)
  | remove {t : NodeTable} (i : NodeID) : SafeReachable t → SafeReachable (t.remove i)

/-- C7, amended: as long as every inserted `NodeInfo` has a digest
different from the table's own digest, `find(self)` returns nothing. -/
theorem find_self_none (t : NodeTable) (h : SafeReachable t) : t.find t.selfid = none := by
  have hmem : ∀ p ∈ t.nodes, p.id.digest ≠ t.selfid.digest := by
    induction h with
    | base k id hk =>
      intro p hp
      simp [NodeTable.nodes, newNodeTable] at hp
    | insert x hx _ ih =>
      intro p hp
      rw [insert_selfid]
      rcases mem_nodes_insert _ _ _ hp with h1 | h1
      · rw [h1]; exact hx
      · exact ih p h1
    | remove i _ ih =>
      intro p hp
      rw [remove_selfid]
      exact ih p (mem_nodes_remove _ _ _ hp)
  unfold NodeTable.find
  apply List.find?_eq_none.mpr
  intro p hp
  simpa using hmem p (mem_getD_flatten hp)

/-- Witness for `find_self_none` on a concrete safely-built table. -/
theorem find_self_none_witness :
    ((newNodeTable 2 ⟨0, 0⟩).insert ⟨⟨0, 5⟩, "a"⟩).find
      ((newNodeTable 2 ⟨0, 0⟩).insert ⟨⟨0, 5⟩, "a"⟩).selfid = none :=
  find_self_none _
    (SafeReachable.insert ⟨⟨0, 5⟩, "a"⟩ (by decide) (SafeReachable.base 2 ⟨0, 0⟩ (by decide)))

theorem mem_append_getD {n : List NodeInfo} {bks : List (List NodeInfo)} {j : Nat} {p : NodeInfo}
    (hp : p ∈ n ++ bks.getD j []) : p ∈ n ∨ p ∈ bks.flatten := by
  rcases List.mem_append.mp hp with h | h
  · left; exact h
  · right; exact mem_getD_flatten h

theorem mem_nearestStep {bks : List (List NodeInfo)} {b i : Nat} {n : List NodeInfo} {p : NodeInfo}
    (hp : p ∈ (if i ≤ b
               then (if b + i < bucketSize then n ++ bks.getD (b + i) [] else n) ++
                 bks.getD (b - i) []
               else (if b + i < bucketSize then n ++ bks.getD (b + i) [] else n))) :
    p ∈ n ∨ p ∈ bks.flatten := by
  split at hp
  · rcases List.mem_append.mp hp with h | h
    · split at h
      · exact mem_append_getD h
      · left; exact h
    · right; exact mem_getD_flatten h
  · split at hp
    · exact mem_append_getD hp
    · left; exact hp

theorem nearestLoop_succ (bks : List (List NodeInfo)) (k b fuel i : Nat) (n : List NodeInfo) :
    nearestLoop bks k b (fuel + 1) i n =
      if k ≤ (if i ≤ b
              then (if b + i < bucketSize then n ++ bks.getD (b + i) [] else n) ++
                bks.getD (b - i) []
              else (if b + i < bucketSize then n ++ bks.getD (b + i) [] else n)).length
      then (if i ≤ b
            then (if b + i < bucketSize then n ++ bks.getD (b + i) [] else n) ++
              bks.getD (b - i) []
            else (if b + i < bucketSize then n ++ bks.getD (b + i) [] else n)).drop
             ((if i ≤ b
               then (if b + i < bucketSize then n ++ bks.getD (b + i) [] else n) ++
                 bks.getD (b - i) []
               else (if b + i < bucketSize then n ++ bks.getD (b + i) [] else n)).length - k)
      else nearestLoop bks k b fuel (i + 1)
             (if i ≤ b
              then (if b + i < bucketSize then n ++ bks.getD (b + i) [] else n) ++
                bks.getD (b - i) []
              else (if b + i < bucketSize then n ++ bks.getD (b + i) [] else n)) := rfl

theorem nearestLoop_length (bks : List (List NodeInfo)) (k b : Nat) :
    ∀ (fuel i : Nat) (n : List NodeInfo), n.length ≤ k →
      (nearestLoop bks k b fuel i n).length ≤ k := by
  intro fuel
  induction fuel with
  | zero => intro i n h; simpa [nearestLoop] using h
  | succ fuel ih =>
    intro i n h
    rw [nearestLoop_succ]
    generalize (if i ≤ b
        then (if b + i < bucketSize then n ++ bks.getD (b + i) [] else n) ++
          bks.getD (b - i) []
        else (if b + i < bucketSize then n ++ bks.getD (b + i) [] else n)) = m
    split
    · rename_i hk2
      rw [List.length_drop]
      omega
    · rename_i hk2
      push_neg at hk2
      exact ih (i + 1) m (le_of_lt hk2)

theorem nearestLoop_subset (bks : List (List NodeInfo)) (k b : Nat) :
    ∀ (fuel i : Nat) (n : List NodeInfo), ∀ p ∈ nearestLoop bks k b fuel i n,
      p ∈ n ∨ p ∈ bks.flatten := by
  intro fuel
  induction fuel with
  | zero =>
    intro i n p hp
    simp only [nearestLoop] at hp
    left; exact hp
  | succ fuel ih =>
    intro i n p hp
    rw [nearestLoop_succ] at hp
    generalize hstep : (if i ≤ b
        then (if b + i < bucketSize then n ++ bks.getD (b + i) [] else n) ++
          bks.getD (b - i) []
        else (if b + i < bucketSize then n ++ bks.getD (b + i) [] else n)) = m at hp
    have hm : ∀ q ∈ m, q ∈ n ∨ q ∈ bks.flatten := by
      intro q hq
      rw [← hstep] at hq
      exact mem_nearestStep hq
    split at hp
    · exact hm p ((List.drop_sublist _ _).mem hp)
    · rcases ih (i + 1) m p hp with h | h
      · exact hm p h
      · right; exact h

set_option maxRecDepth 100000 in
/-- Counterexample to C1: with `k = 2` and a single table entry, the
outward walk appends the starting bucket twice more at offset 0, so
`nearestNodes` returns that one entry twice — the result is not a
duplicate-free selection of table peers. -/
theorem nearestNodes_counterexample :
    (((newNodeTable 2 ⟨0, 0⟩).insert ⟨⟨0, 1⟩, "a"⟩).nearestNodes ⟨0, 1⟩).count
      ⟨⟨0, 1⟩, "a"⟩ = 2 ∧
    ((newNodeTable 2 ⟨0, 0⟩).insert ⟨⟨0, 1⟩, "a"⟩).nodes.count ⟨⟨0, 1⟩, "a"⟩ = 1 := by
  decide

/-- C1, amended: `nearestNodes` follows the coded outward walk (which
re-appends the starting bucket at offset 0, so entries may repeat); the
result always holds at most `k` elements and every element is an entry of
the table. -/
theorem nearestNodes_bounded (t : NodeTable) (id : NodeID) :
    (t.nearestNodes id).length ≤ t.k ∧ ∀ p ∈ t.nearestNodes id, p ∈ t.nodes := by
  unfold NodeTable.nearestNodes
  dsimp only
  by_cases hlt : t.k < (t.buckets.getD (t.bucketIdx id.digest) []).length
  · rw [if_pos hlt]
    constructor
    · rw [List.length_drop]; omega
    · intro p hp
      exact mem_getD_flatten ((List.drop_sublist _ _).mem hp)
  · rw [if_neg hlt]
    push_neg at hlt
    constructor
    · exact nearestLoop_length _ _ _ _ _ _ hlt
    · intro p hp
      rcases nearestLoop_subset _ _ _ _ _ _ p hp with h | h
      · exact mem_getD_flatten h
      · exact h

/-- Values stored in a DHT RPC `args` map: strings (keys, values, raw ids)
or serialized node lists, mirroring the msgpack payloads `dht.go` reads
with type assertions. -/
inductive ArgVal where
  | str : String → ArgVal
  | nodes : List (Nat × String) → ArgVal
  deriving DecidableEq, Repr

/-- The `args` map of a `dhtRpcCommand`, as an association list. -/
abbrev Args := List (String × ArgVal)

/-- `dhtRpcCommand`: a 20-byte correlation id (byte list), a method name
(empty string marks a response) and the `args` map. -/
structure RpcCommand where
  cmdId : List Nat
  method : String
  args : Args
  deriving DecidableEq, Repr

/-- Reading `command.Args[k].(string)`: present and a string, or nothing. -/
def getStrArg (a : Args) (k : String) : Option String :=
  match a with
  | [] => none
  | (k', v) :: rest => if k' = k then
      (match v with
       | ArgVal.str s => some s
       | _ => none)
    else getStrArg rest k

/-- Go map assignment `m[k] = v`: replace the binding if present, else add. -/
def mapSet (m : List (String × String)) (k v : String) : List (String × String) :=
  match m with
  | [] => [(k, v)]
  | (k', v') :: rest => if k' = k then (k, v) :: rest else (k', v') :: mapSet rest k v

/-- `keyValueStore.get`. -/
def kvsGet (m : List (String × String)) (k : String) : Option String :=
  match m with
  | [] => none
  | (k', v) :: rest => if k' = k then some v else kvsGet rest k

/-- `rpcReturnMap.push`: Go map assignment keyed by the raw id bytes; the
channel is a token (`Nat`). -/
def chmapPush (m : List (List Nat × Nat)) (id : List Nat) (c : Nat) : List (List Nat × Nat) :=
  match m with
  | [] => [(id, c)]
  | (i, c') :: rest => if i = id then (id, c) :: rest else (i, c') :: chmapPush rest id c

/-- `rpcReturnMap.pop`: remove the entry for `id` if present and return its
channel, else leave the map unchanged and return nothing. -/
def chmapPop (m : List (List Nat × Nat)) (id : List Nat) :
    List (List Nat × Nat) × Option Nat :=
  match m with
  | [] => ([], none)
  | (i, c) :: rest =>
    if i = id then (rest, some c)
    else
      let pr := chmapPop rest id
      ((i, c) :: pr.1, pr.2)

/-- The state of a `dht` instance that the verified operations touch: the
routing table, the key-value mirror, the pending-response map and a
counter allocating fresh channel tokens. -/
structure DhtState where
  table : NodeTable
  kvs : List (String × String)
  chmap : List (List Nat × Nat)
  nextCh : Nat
  deriving Repr

/-- `newRpcReturnCommand(id, args)`: a response command correlated by `id`
with the empty method. -/
def newRpcReturnCommand (id : List Nat) (args : Args) : RpcCommand :=
  { cmdId := id, method := "", args := args }

/-- The `nodes` serialization loop of `processPacket`: `(id, addr)` pairs. -/
def serializeNodes (l : List NodeInfo) : ArgVal :=
  ArgVal.nodes (l.map (fun n => (n.id.digest, n.addr)))

/-- `dht.sendPacket(dst, command)`: allocate a fresh channel, register it in
the pending map keyed by the command's id, and hand the marshalled packet
to the rpc queue; returns the new state, the emitted packet and the
channel. -/
def sendPacket (st : DhtState) (dst : Nat) (c : RpcCommand) :
    DhtState × (Nat × RpcCommand) × Nat :=
  ({ st with chmap := chmapPush st.chmap c.cmdId st.nextCh, nextCh := st.nextCh + 1 },
   (dst, c),
   st.nextCh)

/-- `dht.processPacket(src, payload)` after a successful unmarshal: insert
the sender, then dispatch on the method.  `sha1` abstracts the SHA-1 hash
of a key and `strToId` the 20-byte truncation `NewNodeId` applies to the
`find-node` id argument; both are opaque to the dispatch logic.  Returns
the new state, the packets sent (destination digest and command) and the
response delivered to a popped pending channel, if any. -/
def processPacket (sha1 strToId : String → Nat) (st : DhtState) (src : NodeInfo)
    (c : RpcCommand) :
    DhtState × List (Nat × RpcCommand) × Option (Nat × RpcCommand) :=
  let st1 : DhtState := { st with table := st.table.insert src }
  if c.method = "ping" then
    let r := sendPacket st1 src.id.digest (newRpcReturnCommand c.cmdId [])
    (r.1, [r.2.1], none)
  else if c.method = "find-node" then
    match getStrArg c.args "id" with
    | some idstr =>
      let nodes := st1.table.nearestNodes ⟨0, strToId idstr⟩
      let r := sendPacket st1 src.id.digest
        (newRpcReturnCommand c.cmdId [("nodes", serializeNodes nodes)])
      (r.1, [r.2.1], none)
    | none => (st1, [], none)
  else if c.method = "store" then
    match getStrArg c.args "key" with
    | some key =>
      (match getStrArg c.args "value" with
       | some v => ({ st1 with kvs := mapSet st1.kvs key v }, [], none)
       | none => (st1, [], none))
    | none => (st1, [], none)
  else if c.method = "find-value" then
    match getStrArg c.args "key" with
    | some key =>
      (match kvsGet st1.kvs key with
       | some v =>
         let r := sendPacket st1 src.id.digest
           (newRpcReturnCommand c.cmdId [("value", ArgVal.str v)])
         (r.1, [r.2.1], none)
       | none =>
         let nodes := st1.table.nearestNodes ⟨0, sha1 key⟩
         let r := sendPacket st1 src.id.digest
           (newRpcReturnCommand c.cmdId [("nodes", serializeNodes nodes)])
         (r.1, [r.2.1], none))
    | none => (st1, [], none)
  else if c.method = "" then
    let pr := chmapPop st1.chmap c.cmdId
    ({ st1 with chmap := pr.1 }, [],
     match pr.2 with
     | some ch => some (ch, c)
     | none => none)
  else (st1, [], none)

/-- C4: a received `find-value` command with a string `key` argument makes
the DHT send exactly one response, correlated by the command's id, carrying
`value = v` when the local store maps `key` to `v` and otherwise `nodes`
(the serialized `nearestNodes` of `sha1(key)` after the free sender
insertion); the key-value store itself is unchanged. -/
theorem findValue_response (sha1 strToId : String → Nat) (st : DhtState) (src : NodeInfo)
    (c : RpcCommand) (key : String)
    (hm : c.method = "find-value") (hk : getStrArg c.args "key" = some key) :
    (∀ v, kvsGet st.kvs key = some v →
      (processPacket sha1 strToId st src c).2.1 =
        [(src.id.digest, newRpcReturnCommand c.cmdId [("value", ArgVal.str v)])]) ∧
    (kvsGet st.kvs key = none →
      (processPacket sha1 strToId st src c).2.1 =
        [(src.id.digest, newRpcReturnCommand c.cmdId
           [("nodes", serializeNodes ((st.table.insert src).nearestNodes ⟨0, sha1 key⟩))])]) ∧
    (processPacket sha1 strToId st src c).1.kvs = st.kvs ∧
    (processPacket sha1 strToId st src c).2.2 = none := by
  refine ⟨?_, ?_, ?_, ?_⟩
  · intro v hv
    simp [processPacket, hm, hk, hv, sendPacket]
  · intro hv
    simp [processPacket, hm, hk, hv, sendPacket]
  · rcases hkv : kvsGet st.kvs key with _ | v <;>
      simp [processPacket, hm, hk, hkv, sendPacket]
  · rcases hkv : kvsGet st.kvs key with _ | v <;>
      simp [processPacket, hm, hk, hkv, sendPacket]

def w4State : DhtState := ⟨newNodeTable 2 ⟨0, 0⟩, [], [], 0⟩

def w4Src : NodeInfo := ⟨⟨0, 3⟩, "a1"⟩

def w4Cmd : RpcCommand := ⟨[1, 2], "find-value", [("key", ArgVal.str "k")]⟩

/-- Witness for `findValue_response` on a concrete state and command. -/
theorem findValue_response_witness :
    (∀ v, kvsGet w4State.kvs "k" = some v →
      (processPacket (fun _ => 7) (fun _ => 0) w4State w4Src w4Cmd).2.1 =
        [(w4Src.id.digest, newRpcReturnCommand w4Cmd.cmdId [("value", ArgVal.str v)])]) ∧
    (kvsGet w4State.kvs "k" = none →
      (processPacket (fun _ => 7) (fun _ => 0) w4State w4Src w4Cmd).2.1 =
        [(w4Src.id.digest, newRpcReturnCommand w4Cmd.cmdId
           [("nodes",
             serializeNodes ((w4State.table.insert w4Src).nearestNodes ⟨0, 7⟩))])]) ∧
    (processPacket (fun _ => 7) (fun _ => 0) w4State w4Src w4Cmd).1.kvs = w4State.kvs ∧
    (processPacket (fun _ => 7) (fun _ => 0) w4State w4Src w4Cmd).2.2 = none :=
  findValue_response (fun _ => 7) (fun _ => 0) w4State w4Src w4Cmd "k" rfl rfl

/-- Number of pending-map entries carrying a given id. -/
def countKey (m : List (List Nat × Nat)) (id : List Nat) : Nat :=
  (m.filter (fun e => e.1 = id)).length

theorem countKey_cons (e : List Nat × Nat) (m : List (List Nat × Nat)) (id : List Nat) :
    countKey (e :: m) id = (if e.1 = id then 1 else 0) + countKey m id := by
  by_cases h : e.1 = id
  · simp [countKey, List.filter, h, Nat.add_comm]
  · simp [countKey, List.filter, h]

theorem countKey_push_self (m : List (List Nat × Nat)) (id : List Nat) (c : Nat)
    (h : countKey m id ≤ 1) : countKey (chmapPush m id c) id = 1 := by
  induction m with
  | nil => simp [chmapPush, countKey_cons, countKey]
  | cons e rest ih =>
    obtain ⟨i, c'⟩ := e
    rw [countKey_cons] at h
    by_cases hi : i = id
    · subst hi
      have hpush : chmapPush ((i, c') :: rest) i c = (i, c) :: rest := by
        simp [chmapPush]
      rw [hpush, countKey_cons]
      simp at h ⊢
      omega
    · have hpush : chmapPush ((i, c') :: rest) id c = (i, c') :: chmapPush rest id c := by
        simp [chmapPush, hi]
      rw [hpush, countKey_cons]
      simp only [if_neg hi] at h ⊢
      simp only [zero_add] at h ⊢
      exact ih h

theorem countKey_push_ne (m : List (List Nat × Nat)) (id : List Nat) (c : Nat) (i : List Nat)
    (hi : i ≠ id) : countKey (chmapPush m id c) i = countKey m i := by
  induction m with
  | nil => simp [chmapPush, countKey_cons, countKey, Ne.symm hi]
  | cons e rest ih =>
    obtain ⟨j, c'⟩ := e
    by_cases hj : j = id
    · subst hj
      have hpush : chmapPush ((j, c') :: rest) j c = (j, c) :: rest := by
        simp [chmapPush]
      rw [hpush, countKey_cons, countKey_cons]
    · have hpush : chmapPush ((j, c') :: rest) id c = (j, c') :: chmapPush rest id c := by
        simp [chmapPush, hj]
      rw [hpush, countKey_cons, countKey_cons, ih]

theorem countKey_pop_self (m : List (List Nat × Nat)) (id : List Nat)
    (h : countKey m id ≤ 1) : countKey (chmapPop m id).1 id = 0 := by
  induction m with
  | nil => simp [chmapPop, countKey]
  | cons e rest ih =>
    obtain ⟨j, c'⟩ := e
    rw [countKey_cons] at h
    by_cases hj : j = id
    · subst hj
      have hpop : (chmapPop ((j, c') :: rest) j).1 = rest := by
        simp [chmapPop]
      rw [hpop]
      simp at h
      omega
    · have hpop : (chmapPop ((j, c') :: rest) id).1 = (j, c') :: (chmapPop rest id).1 := by
        simp [chmapPop, hj]
      rw [hpop, countKey_cons]
      simp only [if_neg hj] at h ⊢
      simp only [zero_add] at h ⊢
      exact ih h

theorem countKey_pop_le (m : List (List Nat × Nat)) (id i : List Nat) :
    countKey (chmapPop m id).1 i ≤ countKey m i := by
  induction m with
  | nil => simp [chmapPop]
  | cons e rest ih =>
    obtain ⟨j, c'⟩ := e
    by_cases hj : j = id
    · subst hj
      have hpop : (chmapPop ((j, c') :: rest) j).1 = rest := by
        simp [chmapPop]
      rw [hpop, countKey_cons]
      split <;> omega
    · have hpop : (chmapPop ((j, c') :: rest) id).1 = (j, c') :: (chmapPop rest id).1 := by
        simp [chmapPop, hj]
      rw [hpop, countKey_cons, countKey_cons]
      omega

theorem chmapPop_none (m : List (List Nat × Nat)) (id : List Nat)
    (h : countKey m id = 0) : chmapPop m id = (m, none) := by
  induction m with
  | nil => simp [chmapPop]
  | cons e rest ih =>
    obtain ⟨j, c'⟩ := e
    rw [countKey_cons] at h
    have hj : ¬ j = id := by
      intro hc
      simp [hc] at h
    have hrest : countKey rest id = 0 := by
      simp only [if_neg hj] at h
      omega
    simp [chmapPop, hj, ih hrest]

/-- Pending maps reachable through `push` and `pop` from the empty map
created by `newDht`. -/
inductive ChmapReach : List (List Nat × Nat) → Prop where
  | nil : ChmapReach []
  | push {m : List (List Nat × Nat)} (id : List Nat) (c : Nat) :
      ChmapReach m → ChmapReach (chmapPush m id c)
  | pop {m : List (List Nat × Nat)} (id : List Nat) :
      ChmapReach m → ChmapReach (chmapPop m id).1

theorem chmapReach_count {m : List (List Nat × Nat)} (h : ChmapReach m) :
    ∀ i, countKey m i ≤ 1 := by
  induction h with
  | nil => intro i; simp [countKey]
  | push id c _ ih =>
    intro i
    by_cases hi : i = id
    · subst hi
      rw [countKey_push_self _ _ _ (ih i)]
    · rw [countKey_push_ne _ _ _ _ hi]
      exact ih i
  | pop id _ ih =>
    intro i
    exact le_trans (countKey_pop_le _ _ _) (ih i)

/-- C5: `sendPacket` registers exactly one pending entry under the
command's id (other ids untouched); any reachable pending map holds at most
one entry per id; and a response pops its entry, so processing the same
response a second time delivers nothing. -/
theorem pending_map_unique (sha1 strToId : String → Nat) (st : DhtState)
    (h : ChmapReach st.chmap) (dst : Nat) (c c2 : RpcCommand) (src : NodeInfo)
    (hm : c2.method = "") :
    (∀ i, countKey st.chmap i ≤ 1) ∧
    countKey (sendPacket st dst c).1.chmap c.cmdId = 1 ∧
    (∀ i, i ≠ c.cmdId → countKey (sendPacket st dst c).1.chmap i = countKey st.chmap i) ∧
    (∀ ch, (chmapPop st.chmap c2.cmdId).2 = some ch →
      (processPacket sha1 strToId st src c2).2.2 = some (ch, c2)) ∧
    (processPacket sha1 strToId (processPacket sha1 strToId st src c2).1 src c2).2.2 = none := by
  have hcnt := chmapReach_count h
  refine ⟨hcnt, ?_, ?_, ?_, ?_⟩
  · exact countKey_push_self _ _ _ (hcnt _)
  · intro i hi
    exact countKey_push_ne _ _ _ _ hi
  · intro ch hch
    simp [processPacket, hm, hch]
  · have h0 : countKey (chmapPop st.chmap c2.cmdId).1 c2.cmdId = 0 :=
      countKey_pop_self _ _ (hcnt _)
    have h2 := chmapPop_none _ _ h0
    simp [processPacket, hm, h2]

def w5State : DhtState := ⟨newNodeTable 2 ⟨0, 0⟩, [], [], 0⟩

/-- Witness for `pending_map_unique` on a concrete state and commands. -/
theorem pending_map_unique_witness :
    (∀ i, countKey w5State.chmap i ≤ 1) ∧
    countKey (sendPacket w5State 4 ⟨[1], "ping", []⟩).1.chmap [1] = 1 ∧
    (∀ i, i ≠ [1] →
      countKey (sendPacket w5State 4 ⟨[1], "ping", []⟩).1.chmap i = countKey w5State.chmap i) ∧
    (∀ ch, (chmapPop w5State.chmap [9]).2 = some ch →
      (processPacket (fun _ => 7) (fun _ => 0) w5State ⟨⟨0, 3⟩, "a"⟩ ⟨[9], "", []⟩).2.2 =
        some (ch, ⟨[9], "", []⟩)) ∧
    (processPacket (fun _ => 7) (fun _ => 0)
      (processPacket (fun _ => 7) (fun _ => 0) w5State ⟨⟨0, 3⟩, "a"⟩ ⟨[9], "", []⟩).1
      ⟨⟨0, 3⟩, "a"⟩ ⟨[9], "", []⟩).2.2 = none :=
  pending_map_unique (fun _ => 7) (fun _ => 0) w5State ChmapReach.nil 4
    ⟨[1], "ping", []⟩ ⟨[9], "", []⟩ ⟨⟨0, 3⟩, "a"⟩ rfl

/-- Modelled from the spec: `internal.Packet` is declared outside the files
under verification; its fields follow the spec's session wire format
`{Dst, Src, Type, Payload, TTL: uint8}` and the router's uses.  The `uint8`
TTL is a natural below 256 whose decrement wraps modulo 256. -/
structure Packet where
  dst : NodeID
  src : NodeID
  type : String
  payload : List Nat
  ttl : Nat
  deriving DecidableEq, Repr

/-- `Router.makePacket(dst, typ, payload)`: the source ID copies the
destination's namespace and carries the router key's digest; TTL is 3. -/
def makePacket (selfDigest : Nat) (dst : NodeID) (typ : String)
    (payload : List Nat) : Packet :=
  { dst := dst
    src := { ns := dst.ns, digest := selfDigest }
    type := typ
    payload := payload
    ttl := 3 }

/-- `Router.SendMessage(dst, payload)`: build a `"msg"` packet and enqueue
it on the send channel (modelled as the queue of pending packets). -/
def SendMessage (selfDigest : Nat) (sendQueue : List Packet) (dst : NodeID)
    (payload : List Nat) : List Packet :=
  sendQueue ++ [makePacket selfDigest dst "msg" payload]

/-- C6: `SendMessage(dst, payload)` enqueues exactly the packet
`{Dst = dst, Src = (dst.NS, self digest), Type = "msg", Payload = payload,
TTL = 3}`; the source namespace is copied from the destination and every
originated packet has TTL 3. -/
theorem sendMessage_packet (selfDigest : Nat) (q : List Packet) (dst : NodeID)
    (payload : List Nat) :
    SendMessage selfDigest q dst payload =
      q ++ [{ dst := dst
              src := { ns := dst.ns, digest := selfDigest }
              type := "msg"
              payload := payload
              ttl := 3 }] := rfl

/-- Go map assignment for the router's group-DHT map (keys are
`NodeID.String()` values, DHT instances are tokens). -/
def mapSetDht (m : List (String × Nat)) (k : String) (v : Nat) : List (String × Nat) :=
  match m with
  | [] => [(k, v)]
  | (k', v') :: rest => if k' = k then (k, v) :: rest else (k', v') :: mapSetDht rest k v

/-- Go map lookup for the router's group-DHT map. -/
def mapGetDht (m : List (String × Nat)) (k : String) : Option Nat :=
  match m with
  | [] => none
  | (k', v) :: rest => if k' = k then some v else mapGetDht rest k

/-- `Router.Join(group)`: if the group key is absent create a DHT for it
(a fresh token) and return no error, otherwise return "already joined" and
leave the map alone.  `keyFn` abstracts `NodeID.String()` (base58). -/
def Join (keyFn : NodeID → String) (groupDht : List (String × Nat)) (nextDht : Nat)
    (g : NodeID) : List (String × Nat) × Nat × Option String :=
  match mapGetDht groupDht (keyFn g) with
  | some _ => (groupDht, nextDht, some "already joined")
  | none => (mapSetDht groupDht (keyFn g) nextDht, nextDht + 1, none)

theorem mapGetDht_set_self (m : List (String × Nat)) (k : String) (v : Nat) :
    mapGetDht (mapSetDht m k v) k = some v := by
  induction m with
  | nil => simp [mapSetDht, mapGetDht]
  | cons e rest ih =>
    obtain ⟨k', v'⟩ := e
    by_cases hk : k' = k
    · subst hk
      simp [mapSetDht, mapGetDht]
    · simp [mapSetDht, mapGetDht, hk, ih]

theorem mapGetDht_set_ne (m : List (String × Nat)) (k : String) (v : Nat) (k2 : String)
    (h : k2 ≠ k) : mapGetDht (mapSetDht m k v) k2 = mapGetDht m k2 := by
  induction m with
  | nil => simp [mapSetDht, mapGetDht, Ne.symm h]
  | cons e rest ih =>
    obtain ⟨k', v'⟩ := e
    by_cases hk : k' = k
    · subst hk
      simp [mapSetDht, mapGetDht, Ne.symm h]
    · simp only [mapSetDht, if_neg hk, mapGetDht]
      by_cases hk2 : k' = k2
      · simp [hk2]
      · simp [hk2, ih]

/-- C9: joining a group not yet joined adds exactly one DHT for it and
returns no error; joining it again returns "already joined" and leaves the
group-DHT map unchanged. -/
theorem join_spec (keyFn : NodeID → String) (gd : List (String × Nat)) (nd : Nat)
    (g : NodeID) :
    (mapGetDht gd (keyFn g) = none →
      (Join keyFn gd nd g).2.2 = none ∧
      mapGetDht (Join keyFn gd nd g).1 (keyFn g) = some nd ∧
      (∀ k2, k2 ≠ keyFn g → mapGetDht (Join keyFn gd nd g).1 k2 = mapGetDht gd k2)) ∧
    (∀ d, mapGetDht gd (keyFn g) = some d →
      (Join keyFn gd nd g).1 = gd ∧
      (Join keyFn gd nd g).2.2 = some "already joined") := by
  constructor
  · intro h
    refine ⟨by simp [Join, h], ?_, ?_⟩
    · simp [Join, h, mapGetDht_set_self]
    · intro k2 hk2
      simp [Join, h, mapGetDht_set_ne gd (keyFn g) nd k2 hk2]
  · intro d h
    exact ⟨by simp [Join, h], by simp [Join, h]⟩

/-- Witness for `join_spec`: joining a fresh group succeeds, rejoining the
same group fails and changes nothing. -/
theorem join_spec_witness :
    ((Join (fun _ => "g") [] 0 ⟨1, 2⟩).2.2 = none ∧
     mapGetDht (Join (fun _ => "g") [] 0 ⟨1, 2⟩).1 "g" = some 0 ∧
     (∀ k2, k2 ≠ "g" →
       mapGetDht (Join (fun _ => "g") [] 0 ⟨1, 2⟩).1 k2 = mapGetDht [] k2)) ∧
    ((Join (fun _ => "g") [("g", 5)] 7 ⟨1, 2⟩).1 = [("g", 5)] ∧
     (Join (fun _ => "g") [("g", 5)] 7 ⟨1, 2⟩).2.2 = some "already joined") :=
  ⟨(join_spec (fun _ => "g") [] 0 ⟨1, 2⟩).1 rfl,
   (join_spec (fun _ => "g") [("g", 5)] 7 ⟨1, 2⟩).2 5 rfl⟩

/-- The group-forwarding step of `Router.readSession`: when the packet's
source namespace differs from the global one and the destination group is
joined, the `uint8` TTL is decremented (wrapping modulo 256) and, while it
stays positive, the packet is re-written to every known member of the
group's DHT. -/
def forwardGroupPacket (globalNS : Nat) (joinedDst : Bool) (members : List NodeID)
    (pkt : Packet) : Packet × List (NodeID × Packet) :=
  if pkt.src.ns ≠ globalNS then
    if joinedDst then
      let pkt2 : Packet := { pkt with ttl := (pkt.ttl + 255) % 256 }
      if pkt2.ttl > 0 then (pkt2, members.map (fun m => (m, pkt2)))
      else (pkt2, [])
    else (pkt, [])
  else (pkt, [])

/-- C10: a group packet arriving with TTL 0 wraps to 255 on the `uint8`
decrement, so the positive-TTL branch fires and the packet is re-broadcast
to every known member of the joined destination group. -/
theorem ttl_zero_rebroadcast (globalNS : Nat) (members : List NodeID) (pkt : Packet)
    (h0 : pkt.ttl = 0) (hns : pkt.src.ns ≠ globalNS) :
    forwardGroupPacket globalNS true members pkt =
      ({ pkt with ttl := 255 },
       members.map (fun m => (m, { pkt with ttl := 255 }))) := by
  simp [forwardGroupPacket, hns, h0]

/-- Witness for `ttl_zero_rebroadcast` on a concrete packet and group. -/
theorem ttl_zero_rebroadcast_witness :
    forwardGroupPacket 0 true [⟨1, 9⟩] ⟨⟨1, 4⟩, ⟨1, 6⟩, "msg", [1], 0⟩ =
      (⟨⟨1, 4⟩, ⟨1, 6⟩, "msg", [1], 255⟩,
       [(⟨1, 9⟩, ⟨⟨1, 4⟩, ⟨1, 6⟩, "msg", [1], 255⟩)]) :=
  ttl_zero_rebroadcast 0 [⟨1, 9⟩] ⟨⟨1, 4⟩, ⟨1, 6⟩, "msg", [1], 0⟩ rfl (by decide)
